import Mathlib

/-!
Verification of the Tempo activity tracker's aggregation, categorization and
report pipeline (src/core/aggregator.py, src/core/categorizer.py,
src/core/reports.py), as a shallow embedding in Lean 4.

Modelling conventions:
* A Python session dict is a `Session` record.  Every field that the source
  reads with `dict.get(k, default)` is an `Option`; a raw read `dict[k]` is
  modelled in the `Except String` monad, returning `Except.error` exactly when
  Python would raise `KeyError`.  Additional dict keys beyond the five the
  aggregator reads are modelled by the `extra` field (only their presence
  matters to the code, in `compress_old_data`).
* Timestamps and durations are integers (`Int`); Python's floor division
  `//` is `Int.fdiv`.  Productivity scores use `ℚ` with an explicit
  round-half-to-even function modelling Python's `round`.
* Python's `sorted` is a stable sort; it is embedded as a stable insertion
  sort (`sortByKey`), which agrees with every stable sort on the same key.
-/

/-- A session record, mirroring the keys of the session dictionaries in
`aggregator.py`.  `extra` stands for any further keys a dict may carry. -/
structure Session where
  app_name : Option String
  start_time : Option Int
  end_time : Option Int
  duration : Option Int
  category : Option String
  extra : List (String × Int)
deriving Repr, DecidableEq

/-- Python `session.get("start_time", 0)`. -/
def sessStart (s : Session) : Int := s.start_time.getD 0

/-- Python `session.get("end_time", 0)` as used by the merge gap test. -/
def sessEndD0 (s : Session) : Int := s.end_time.getD 0

/-- Python `session.get("end_time", start_time)` as used by `create_hourly_summary`. -/
def sessEnd (s : Session) : Int := s.end_time.getD (sessStart s)

/-- Python `session.get("duration", 0)`. -/
def sessDuration (s : Session) : Int := s.duration.getD 0

/-- Python `session.get("category", "neutral")`. -/
def sessCategory (s : Session) : String := s.category.getD "neutral"

/-- Python `session.get("app_name", "unknown")`. -/
def sessApp (s : Session) : String := s.app_name.getD "unknown"

/-- A raw dict read such as `d[k]`: `KeyError` when the key is absent. -/
def keyRead (o : Option α) (msg : String) : Except String α :=
  match o with
  | some a => Except.ok a
  | none => Except.error msg

/-- Comparison by an integer key, the order Python's `sorted(xs, key=...)`
sorts by. -/
def keyLe (key : α → Int) (a b : α) : Prop := key a ≤ key b

instance (key : α → Int) : DecidableRel (keyLe key) := fun a b => by
  unfold keyLe; infer_instance

instance (key : α → Int) : IsTotal α (keyLe key) := ⟨fun _ _ => le_total _ _⟩

instance (key : α → Int) : IsTrans α (keyLe key) := ⟨fun _ _ _ => le_trans⟩

/-- Stable sort by an integer key.  Python's `sorted(xs, key=...)` is stable,
and all stable sorts by the same key agree, so a stable insertion sort is
extensionally the sort the source performs. -/
def sortByKey (key : α → Int) (l : List α) : List α := List.insertionSort (keyLe key) l

/-- Python `sorted(sessions, key=lambda x: x.get("start_time", 0))`. -/
def sortSessions (ss : List Session) : List Session := sortByKey sessStart ss

/-- The merge test of `merge_consecutive_sessions` (aggregator.py lines
51-54): `session["app_name"] == current["app_name"] and
session.get("start_time", 0) - current.get("end_time", 0) <= gap_threshold`.
Raises `KeyError` if either dict lacks `app_name`. -/
def mergeStep (gap : Int) (cur s : Session) : Except String Bool := do
  let sApp ← keyRead s.app_name "KeyError: app_name"
  let cApp ← keyRead cur.app_name "KeyError: app_name"
  pure (decide (sApp = cApp) && decide (sessStart s - sessEndD0 cur ≤ gap))

/-- The flush step (aggregator.py lines 60-61 and 66-68): fill in `duration`
when it is absent and both timestamps are present. -/
def finalize (cur : Session) : Session :=
  match cur.duration, cur.start_time, cur.end_time with
  | none, some st, some e => { cur with duration := some (e - st) }
  | _, _, _ => cur

/-- The loop of `merge_consecutive_sessions` over the sorted tail, with
`cur` the running accumulator (`current` in the source).  On a merge,
`current["end_time"] = session.get("end_time", session.get("start_time", 0))`
and `current["duration"] = current["end_time"] - current["start_time"]`
(a raw read of `start_time`); otherwise the accumulator is flushed and the
incoming session copied as the new accumulator. -/
def mergeAux (gap : Int) (cur : Session) : List Session → Except String (List Session)
  | [] => Except.ok [finalize cur]
  | s :: rest => do
    let b ← mergeStep gap cur s
    if b then do
      let e := s.end_time.getD (sessStart s)
      let st ← keyRead cur.start_time "KeyError: start_time"
      mergeAux gap { cur with end_time := some e, duration := some (e - st) } rest
    else
      (fun l => finalize cur :: l) <$> mergeAux gap s rest

/-- The function `DataAggregator.merge_consecutive_sessions` (aggregator.py lines
28-71), with the instance's `gap_threshold` passed explicitly (default 10). -/
def merge_consecutive_sessions (gap : Int) (ss : List Session) : Except String (List Session) :=
  match sortSessions ss with
  | [] => Except.ok []
  | c :: rest => mergeAux gap c rest

instance : DecidableEq (Except String (List Session)) := fun a b =>
  match a, b with
  | Except.ok x, Except.ok y =>
    if h : x = y then isTrue (by rw [h]) else isFalse (by simp [h])
  | Except.error x, Except.error y =>
    if h : x = y then isTrue (by rw [h]) else isFalse (by simp [h])
  | Except.ok _, Except.error _ => isFalse (by simp)
  | Except.error _, Except.ok _ => isFalse (by simp)

/-- A session record that honours the spec's data model (section 3): the
three core keys are present and `duration`, when present, is the derived
value `end_time - start_time`. -/
def CompleteSession (s : Session) : Prop :=
  s.app_name.isSome ∧ s.start_time.isSome ∧ s.end_time.isSome ∧
    (s.duration = none ∨ s.duration = some (sessEndD0 s - sessStart s))

instance : DecidablePred CompleteSession := fun s => by
  unfold CompleteSession; infer_instance

/-- Shorthand for a session dict `{"app_name": a, "start_time": st, "end_time": en}`. -/
def mkS (a : String) (st en : Int) : Session :=
  { app_name := some a, start_time := some st, end_time := some en,
    duration := none, category := none, extra := [] }

/-- The first session of the C5 counterexample: an accumulator dict with no
`end_time` key. -/
def openSession : Session :=
  { app_name := some "A", start_time := some 0, end_time := none,
    duration := none, category := none, extra := [] }

/-- Witness data: a two-session day with a missing and a valid category. -/
def c7ss : List Session :=
  [{ app_name := some "A", start_time := none, end_time := none,
     duration := some 7, category := none, extra := [] },
   { app_name := some "B", start_time := none, end_time := none,
     duration := some 5, category := some "distracting", extra := [] }]

/-- Merged output records used in concrete counterexamples and witnesses. -/
def sessA0_100 : Session := ⟨some "A", some 0, some 100, some 100, none, []⟩

def sessB0_100 : Session := ⟨some "B", some 0, some 100, some 100, none, []⟩

def sessA0_20 : Session := ⟨some "A", some 0, some 20, some 20, none, []⟩

def sessA0_10 : Session := ⟨some "A", some 0, some 10, some 10, none, []⟩

def sessA50_60 : Session := ⟨some "A", some 50, some 60, some 10, none, []⟩

/-- Hour-aligned floor of a timestamp: `int(t // 3600) * 3600`. -/
def hourFloor (t : Int) : Int := t.fdiv 3600 * 3600

/-- The hour keys visited by the `while current_hour < end_hour` loop of
`create_hourly_summary` (aggregator.py lines 117-124): `sh + 3600`,
`sh + 2*3600`, ... strictly below `eh`. -/
def middleHours (sh eh : Int) : List Int :=
  (List.range ((eh - sh - 1).fdiv 3600).toNat).map (fun i : Nat => sh + 3600 * ((i : Int) + 1))

/-- The hour keys of `hourly_data` that a single session touches
(aggregator.py lines 97-132): its start hour; every full hour strictly
between start hour and end hour; and the end hour when the remainder
`end_time - end_hour` is positive. -/
def sessionHours (s : Session) : List Int :=
  let sh := hourFloor (sessStart s)
  let eh := hourFloor (sessEnd s)
  if sh = eh then [sh]
  else sh :: (middleHours sh eh ++ (if 0 < sessEnd s - eh then [eh] else []))

/-- The amount a single session adds to the `total_duration` of the bucket of
hour `h`, following the three branches of aggregator.py lines 101-132. -/
def sessionContrib (s : Session) (h : Int) : Int :=
  let st := sessStart s
  let en := sessEnd s
  let sh := hourFloor st
  let eh := hourFloor en
  if sh = eh then (if h = sh then en - st else 0)
  else
    (if h = sh then sh + 3600 - st else 0) +
    (if h ∈ middleHours sh eh then 3600 else 0) +
    (if h = eh ∧ 0 < en - eh then en - eh else 0)

/-- One entry of the list returned by `create_hourly_summary`.  The per-app
breakdown (`apps`) is not modelled: no claim mentions it. -/
structure HourBucket where
  hour_start : Int
  total_duration : Int
deriving Repr, DecidableEq

/-- The function `DataAggregator.create_hourly_summary` (aggregator.py lines
73-145): accumulate each session's contributions into a dict keyed by hour,
then emit the buckets in ascending key order.  The dict is modelled by its
key set (`dedup` of all touched hours) and, per key, the sum of all
contributions; `sorted(hourly_data.keys())` is `sortByKey id` on the
distinct keys. -/
def create_hourly_summary (ss : List Session) : List HourBucket :=
  if ss.isEmpty then []
  else
    (sortByKey id (ss.flatMap sessionHours).dedup).map (fun h =>
      { hour_start := h, total_duration := (ss.map (fun s => sessionContrib s h)).sum })

/-- The dictionary returned by `create_daily_summary`. -/
structure DailySummary where
  total_time : Int
  productive_time : Int
  neutral_time : Int
  distracting_time : Int
  num_sessions : Nat
  num_apps : Nat
deriving Repr, DecidableEq

/-- The body of the `for session in sessions` loop of `create_daily_summary`
(aggregator.py lines 168-181): add the duration to `total_time` and to the
bucket selected by the `if category == ... elif ...` chain; a category equal
to none of the three strings is added to no bucket. -/
def dailyAdd (acc : DailySummary) (s : Session) : DailySummary :=
  let d := sessDuration s
  let c := sessCategory s
  let acc1 := { acc with total_time := acc.total_time + d }
  if c = "productive" then { acc1 with productive_time := acc1.productive_time + d }
  else if c = "neutral" then { acc1 with neutral_time := acc1.neutral_time + d }
  else if c = "distracting" then { acc1 with distracting_time := acc1.distracting_time + d }
  else acc1

/-- The `apps_seen` set of `create_daily_summary`, modelled as a list without
duplicates (only its size is read). -/
def insertSeen (a : String) (seen : List String) : List String :=
  if a ∈ seen then seen else seen ++ [a]

/-- The function `DataAggregator.create_daily_summary` (aggregator.py lines
147-185). -/
def create_daily_summary (ss : List Session) : DailySummary :=
  let core := ss.foldl dailyAdd
    { total_time := 0, productive_time := 0, neutral_time := 0,
      distracting_time := 0, num_sessions := ss.length, num_apps := 0 }
  let seen := ss.foldl (fun acc s => insertSeen (sessApp s) acc) []
  { core with num_apps := seen.length }

/-- The function `DataAggregator.filter_short_sessions` (aggregator.py lines
187-200), with the instance's `min_duration` passed explicitly (default 30). -/
def filter_short_sessions (min_duration : Int) (ss : List Session) : List Session :=
  ss.filter (fun s => min_duration ≤ sessDuration s)

/-- The function `DataAggregator.compress_old_data` (aggregator.py lines
202-238), with `time.time()` passed explicitly as `current_time`.  Sessions
older than the threshold keep only the five modelled keys, i.e. lose their
`extra` entries; newer sessions pass through as unchanged copies. -/
def compress_old_data (current_time : Int) (days_threshold : Int) (ss : List Session) :
    List Session :=
  ss.map (fun s =>
    if s.start_time.getD current_time < current_time - days_threshold * 24 * 3600 then
      { s with extra := [] }
    else s)

/-- The mutable rule state of `AppCategorizer`: the default table
`categories` and the override table `custom_rules`, each a lowercased-name
keyed dict modelled by its lookup function. -/
structure AppCategorizer where
  categories : String → Option String
  custom_rules : String → Option String

/-- The fixed three-value category set of `set_category` (categorizer.py
line 101). -/
def validCategories : List String := ["productive", "neutral", "distracting"]

/-- The method `AppCategorizer.set_category` (categorizer.py lines 99-104):
raise `ValueError` for a category outside the fixed set, before any state is
touched; otherwise store the override under the lowercased app name. -/
def set_category (c : AppCategorizer) (app_name category : String) :
    Except String AppCategorizer :=
  if category ∉ validCategories then
    Except.error ("Invalid category: " ++ category)
  else
    Except.ok { c with custom_rules := fun k =>
      if k = app_name.toLower then some category else c.custom_rules k }

/-- Round half to even, the behaviour of Python's builtin `round`. -/
def bankersRound (q : ℚ) : Int :=
  if q - ⌊q⌋ < 1 / 2 then ⌊q⌋
  else if 1 / 2 < q - ⌊q⌋ then ⌊q⌋ + 1
  else if ⌊q⌋ % 2 = 0 then ⌊q⌋ else ⌊q⌋ + 1

/-- The method `AppCategorizer.calculate_productivity_score` (categorizer.py
lines 126-153), over exact rationals. -/
def calculate_productivity_score (p n d : ℚ) : Int :=
  let total := p + n + d
  if total = 0 then 0
  else bankersRound ((p * 1 + n * (1 / 2) + d * 0) / total * 100)

/-- The two fields of a daily report that `calculate_trends` reads.  The
reports themselves come through `generate_daily_report` from the abstract
session store, so trend analysis is verified for every report function. -/
structure DailyLite where
  total_time : ℚ
  productivity_score : ℚ

/-- The dictionary returned by `calculate_trends`; the insufficient-data
branch returns no `scores` key, modelled by `none`. -/
structure TrendOut where
  trend_direction : String
  average_score : ℚ
  scores : Option (List ℚ)
deriving DecidableEq

/-- The method `ReportGenerator.calculate_trends` (reports.py lines 169-213).
`rep i` stands for `generate_daily_report(now - i*86400)`; the loop walks
`i = 0 .. days-1` (today backward), keeps the scores of days with positive
`total_time`, and reverses them into chronological order before comparing
half-averages. -/
def calculate_trends (days : Nat) (rep : Nat → DailyLite) : TrendOut :=
  let scores := ((List.range days).filter (fun i => 0 < (rep i).total_time)).map
    (fun i => (rep i).productivity_score)
  if scores.length < 2 then
    { trend_direction := "insufficient_data", average_score := scores.headD 0,
      scores := none }
  else
    let s := scores.reverse
    let n := s.length
    let firstAvg := (s.take (n / 2)).sum / ((n / 2 : Nat) : ℚ)
    let secondAvg := (s.drop (n / 2)).sum / ((n - n / 2 : Nat) : ℚ)
    let trend :=
      if firstAvg + 5 < secondAvg then "improving"
      else if secondAvg < firstAvg - 5 then "declining"
      else "stable"
    { trend_direction := trend, average_score := s.sum / (n : ℚ), scores := some s }

/-- An empty session dict, the content of unused heap cells. -/
def blankSession : Session :=
  { app_name := none, start_time := none, end_time := none,
    duration := none, category := none, extra := [] }

/-- A heap of session dictionaries, for the frame (no-mutation) property of
`merge_consecutive_sessions`: Python dicts are mutable objects, so the input
list holds references into this heap, `session.copy()` allocates a fresh
cell, and assignments like `current["end_time"] = ...` update one cell in
place. -/
structure Heap where
  cells : List (Nat × Session)
  next : Nat
deriving Repr, DecidableEq

/-- Dereference a session dict. -/
def hget (h : Heap) (r : Nat) : Session :=
  (((h.cells.find? (fun p => p.1 = r)).map Prod.snd).getD blankSession)

/-- In-place update of the dict at reference `r`. -/
def hset (h : Heap) (r : Nat) (s : Session) : Heap :=
  { h with cells := h.cells.map (fun p => if p.1 = r then (r, s) else p) }

/-- Model of `session.copy()`: allocate a fresh dict holding `s`. -/
def halloc (h : Heap) (s : Session) : Nat × Heap :=
  (h.next, { cells := h.cells ++ [(h.next, s)], next := h.next + 1 })

/-- The flush step of the merge loop performed on the heap: mutates the
accumulator dict in place (aggregator.py lines 60-61, 66-68). -/
def finalizeH (h : Heap) (cur : Nat) : Heap :=
  match (hget h cur).duration, (hget h cur).start_time, (hget h cur).end_time with
  | none, some st, some e => hset h cur { hget h cur with duration := some (e - st) }
  | _, _, _ => h

/-- The merge loop on the heap: `cur` is the reference of the `current`
accumulator dict (always a fresh copy), `refs` the references of the
remaining sorted sessions.  Returns the final heap and the references
appended to `merged`. -/
def mergeAuxH (gap : Int) (h : Heap) (cur : Nat) :
    List Nat → Except String (Heap × List Nat)
  | [] => Except.ok (finalizeH h cur, [cur])
  | r :: rest => do
    let b ← mergeStep gap (hget h cur) (hget h r)
    if b then do
      let s := hget h r
      let e := s.end_time.getD (sessStart s)
      let st ← keyRead (hget h cur).start_time "KeyError: start_time"
      mergeAuxH gap (hset h cur { hget h cur with end_time := some e, duration := some (e - st) })
        cur rest
    else
      let h1 := finalizeH h cur
      let a := halloc h1 (hget h1 r)
      (fun p => (p.1, cur :: p.2)) <$> mergeAuxH gap a.2 a.1 rest

/-- Heap-level `merge_consecutive_sessions`: sort the references by the
start time read from the heap (building a new list, mutating nothing), copy
the first session as the initial accumulator, and run the loop. -/
def merge_consecutive_sessionsH (gap : Int) (h : Heap) (refs : List Nat) :
    Except String (Heap × List Nat) :=
  match sortByKey (fun r => sessStart (hget h r)) refs with
  | [] => Except.ok (h, [])
  | r :: rest =>
    let a := halloc h (hget h r)
    mergeAuxH gap a.2 a.1 rest

/-- Witness data: a heap of two session dicts. -/
def w10heap : Heap :=
  { cells := [(0, mkS "A" 0 10), (1, mkS "A" 12 20)], next := 2 }

theorem except_bind_ok (a : α) (f : α → Except ε β) :
    (Except.ok a : Except ε α) >>= f = f a := rfl

theorem except_bind_error (e : ε) (f : α → Except ε β) :
    (Except.error e : Except ε α) >>= f = Except.error e := rfl

theorem except_map_ok (g : α → β) (a : α) :
    g <$> (Except.ok a : Except ε α) = Except.ok (g a) := rfl

theorem except_map_error (g : α → β) (e : ε) :
    g <$> (Except.error e : Except ε α) = (Except.error e : Except ε β) := rfl

example :
    merge_consecutive_sessions 10
      [mkS "firefox" 1000 1100, mkS "firefox" 1100 1200,
       mkS "vscode" 1200 1300, mkS "firefox" 1300 1400] =
    Except.ok
      [{ app_name := some "firefox", start_time := some 1000, end_time := some 1200,
         duration := some 200, category := none, extra := [] },
       { app_name := some "vscode", start_time := some 1200, end_time := some 1300,
         duration := some 100, category := none, extra := [] },
       { app_name := some "firefox", start_time := some 1300, end_time := some 1400,
         duration := some 100, category := none, extra := [] }] := by decide

theorem bankersRound_cases (q : ℚ) : bankersRound q = ⌊q⌋ ∨ bankersRound q = ⌊q⌋ + 1 := by
  unfold bankersRound
  split_ifs <;> simp

theorem bankersRound_nonneg {q : ℚ} (h : 0 ≤ q) : 0 ≤ bankersRound q := by
  have hf : (0 : Int) ≤ ⌊q⌋ := Int.floor_nonneg.mpr h
  rcases bankersRound_cases q with h1 | h1 <;> omega

theorem bankersRound_le_hundred {q : ℚ} (h : q ≤ 100) : bankersRound q ≤ 100 := by
  have hf : ⌊q⌋ ≤ 100 := by
    have := Int.floor_le_floor h
    simpa using this
  have hfl : (⌊q⌋ : ℚ) ≤ q := Int.floor_le q
  unfold bankersRound
  split_ifs with h1 h2 h3
  · exact hf
  · have : (⌊q⌋ : ℚ) < 100 - 1 / 2 := by linarith
    have : (⌊q⌋ : ℚ) < 100 := by linarith
    have : ⌊q⌋ < 100 := by exact_mod_cast this
    omega
  · exact hf
  · have h12 : q - ⌊q⌋ = 1 / 2 := le_antisymm (not_lt.mp h2) (not_lt.mp h1)
    have : (⌊q⌋ : ℚ) < 100 := by linarith
    have : ⌊q⌋ < 100 := by exact_mod_cast this
    omega

/-- C3: for all non-negative inputs, `calculate_productivity_score` returns an
integer in [0,100]; it returns 0 when the total is 0 (never a division
error), and otherwise round(100 * (productive + 0.5*neutral) / total) with
round-half-to-even; in particular score(0,0,0) = 0 and score(480,60,60) = 85. -/
theorem c3_score_spec (p n d : ℚ) (hp : 0 ≤ p) (hn : 0 ≤ n) (hd : 0 ≤ d) :
    (p + n + d = 0 → calculate_productivity_score p n d = 0) ∧
    (p + n + d ≠ 0 →
      calculate_productivity_score p n d =
        bankersRound (100 * (p + (1 / 2) * n) / (p + n + d))) ∧
    0 ≤ calculate_productivity_score p n d ∧
    calculate_productivity_score p n d ≤ 100 ∧
    calculate_productivity_score (0 : ℚ) 0 0 = 0 ∧
    calculate_productivity_score (480 : ℚ) 60 60 = 85 := by
  have harg : (p * 1 + n * (1 / 2) + d * 0) / (p + n + d) * 100 =
      100 * (p + (1 / 2) * n) / (p + n + d) := by
    ring
  refine ⟨fun h0 => by simp [calculate_productivity_score, h0], ?_, ?_, ?_, ?_, ?_⟩
  · intro h0
    simp only [calculate_productivity_score, h0, if_false]
    rw [harg]
  · by_cases h0 : p + n + d = 0
    · simp [calculate_productivity_score, h0]
    · simp only [calculate_productivity_score, h0, if_false]
      apply bankersRound_nonneg
      have ht : 0 < p + n + d := lt_of_le_of_ne (by positivity) (Ne.symm h0)
      positivity
  · by_cases h0 : p + n + d = 0
    · simp [calculate_productivity_score, h0]
    · have ht : 0 < p + n + d := lt_of_le_of_ne (by positivity) (Ne.symm h0)
      simp only [calculate_productivity_score, h0, if_false]
      apply bankersRound_le_hundred
      rw [div_mul_eq_mul_div, div_le_iff₀ ht]
      linarith
  · simp [calculate_productivity_score]
  · have hne : ¬((480 : ℚ) + 60 + 60 = 0) := by norm_num
    have h85 : ((480 : ℚ) * 1 + 60 * (1 / 2) + 60 * 0) / (480 + 60 + 60) * 100 = 85 := by
      norm_num
    have hfl : ⌊(85 : ℚ)⌋ = 85 := by norm_num
    simp only [calculate_productivity_score, hne, if_false, h85, bankersRound, hfl]
    norm_num

theorem c3_witness :
    (0 : ℚ) ≤ 480 ∧ (0 : ℚ) ≤ 60 ∧
    0 ≤ calculate_productivity_score 480 60 60 ∧
    calculate_productivity_score 480 60 60 ≤ 100 := by
  have h : (0 : ℚ) ≤ 480 := by norm_num
  have h60 : (0 : ℚ) ≤ 60 := by norm_num
  obtain ⟨-, -, h1, h2, -, -⟩ := c3_score_spec 480 60 60 h h60 h60
  exact ⟨h, h60, h1, h2⟩

/-- C8: `set_category` raises the invalid-category error exactly when the
category is outside the fixed three-value set; the error is raised before any
state is touched, so the rule state is unchanged (in this pure model, no new
state is produced); on success only the override entry for the lowercased app
name is stored or overwritten. -/
theorem c8_set_category_spec (c : AppCategorizer) (app cat : String) :
    ((∃ msg, set_category c app cat = Except.error msg) ↔ cat ∉ validCategories) ∧
    (cat ∈ validCategories →
      ∃ c', set_category c app cat = Except.ok c' ∧
        c'.categories = c.categories ∧
        ∀ k, c'.custom_rules k =
          if k = app.toLower then some cat else c.custom_rules k) := by
  by_cases h : cat ∈ validCategories
  · constructor
    · simp [set_category, h]
    · intro _
      refine ⟨{ c with custom_rules := fun k =>
        if k = app.toLower then some cat else c.custom_rules k }, ?_, rfl, fun k => rfl⟩
      simp [set_category, h]
  · constructor
    · simp [set_category, h]
    · intro hc
      exact absurd hc h

theorem c8_witness :
    "productive" ∈ validCategories ∧
    ∃ c', set_category (AppCategorizer.mk (fun _ => none) (fun _ => none))
        "YouTube" "productive" = Except.ok c' ∧
      c'.custom_rules ("YouTube".toLower) = some "productive" ∧
      c'.categories = (fun _ => none) := by
  have h : "productive" ∈ validCategories := by decide
  obtain ⟨c', h1, h2, h3⟩ :=
    (c8_set_category_spec (AppCategorizer.mk (fun _ => none) (fun _ => none))
      "YouTube" "productive").2 h
  refine ⟨h, c', h1, ?_, h2⟩
  rw [h3 ("YouTube".toLower)]
  simp

/-- C5 counterexample: in `merge_consecutive_sessions` a session with an
absent `end_time` IS used as the left-hand accumulator of a merge when the
following start time is small: `get("end_time", 0)` makes the gap test
`5 - 0 <= 10` succeed, and the two records collapse into one merged record. -/
theorem c5_counterexample :
    merge_consecutive_sessions 10 [openSession, mkS "A" 5 8] =
    Except.ok
      [{ app_name := some "A", start_time := some 0, end_time := some 8,
         duration := some 8, category := none, extra := [] }] := by decide

/-- C5 amended: a session whose `end_time` is absent or negative is never the
left-hand accumulator of a merge PROVIDED the incoming session's start time
exceeds the gap threshold (an absent `end_time` is read as 0 by the gap test,
so with realistic positive timestamps the merge test fails; with start times
at or below the threshold it can still succeed). -/
theorem c5_gap_guard (gap : Int) (cur s : Session)
    (hend : cur.end_time = none ∨ ∃ e, cur.end_time = some e ∧ e < 0)
    (hstart : gap < sessStart s) :
    mergeStep gap cur s ≠ Except.ok true := by
  have h0 : sessEndD0 cur ≤ 0 := by
    rcases hend with h | ⟨e, he, hneg⟩
    · simp [sessEndD0, h]
    · simp [sessEndD0, he]
      omega
  have hgap : ¬(sessStart s - sessEndD0 cur ≤ gap) := by omega
  unfold mergeStep
  cases hs : s.app_name with
  | none => simp [keyRead, except_bind_error]
  | some sa =>
    cases hc : cur.app_name with
    | none => simp [keyRead, except_bind_ok, except_bind_error]
    | some ca =>
      simp [keyRead, except_bind_ok, hgap]

theorem c5_witness :
    (openSession.end_time = none ∨ ∃ e, openSession.end_time = some e ∧ e < 0) ∧
    (10 : Int) < sessStart (mkS "A" 20 30) ∧
    mergeStep 10 openSession (mkS "A" 20 30) ≠ Except.ok true :=
  ⟨Or.inl rfl, by decide,
    c5_gap_guard 10 openSession (mkS "A" 20 30) (Or.inl rfl) (by decide)⟩

theorem dailyAdd_fields (acc : DailySummary) (s : Session) :
    (dailyAdd acc s).total_time = acc.total_time + sessDuration s ∧
    (dailyAdd acc s).productive_time = acc.productive_time +
      (if sessCategory s = "productive" then sessDuration s else 0) ∧
    (dailyAdd acc s).neutral_time = acc.neutral_time +
      (if sessCategory s = "neutral" then sessDuration s else 0) ∧
    (dailyAdd acc s).distracting_time = acc.distracting_time +
      (if sessCategory s = "distracting" then sessDuration s else 0) ∧
    (dailyAdd acc s).num_sessions = acc.num_sessions ∧
    (dailyAdd acc s).num_apps = acc.num_apps := by
  unfold dailyAdd
  split_ifs with h1 h2 h3 <;> simp_all

theorem dailyFold_total (ss : List Session) : ∀ acc : DailySummary,
    (ss.foldl dailyAdd acc).total_time = acc.total_time + (ss.map sessDuration).sum := by
  induction ss with
  | nil => intro acc; simp
  | cons s t ih =>
    intro acc
    simp only [List.foldl_cons, List.map_cons, List.sum_cons, ih, (dailyAdd_fields acc s).1]
    ring

theorem dailyFold_prod (ss : List Session) : ∀ acc : DailySummary,
    (ss.foldl dailyAdd acc).productive_time = acc.productive_time +
      ((ss.filter (fun s => sessCategory s = "productive")).map sessDuration).sum := by
  induction ss with
  | nil => intro acc; simp
  | cons s t ih =>
    intro acc
    simp only [List.foldl_cons, List.filter_cons, ih, (dailyAdd_fields acc s).2.1]
    by_cases h : sessCategory s = "productive" <;> simp [h] <;> ring

theorem dailyFold_neut (ss : List Session) : ∀ acc : DailySummary,
    (ss.foldl dailyAdd acc).neutral_time = acc.neutral_time +
      ((ss.filter (fun s => sessCategory s = "neutral")).map sessDuration).sum := by
  induction ss with
  | nil => intro acc; simp
  | cons s t ih =>
    intro acc
    simp only [List.foldl_cons, List.filter_cons, ih, (dailyAdd_fields acc s).2.2.1]
    by_cases h : sessCategory s = "neutral" <;> simp [h] <;> ring

theorem dailyFold_dist (ss : List Session) : ∀ acc : DailySummary,
    (ss.foldl dailyAdd acc).distracting_time = acc.distracting_time +
      ((ss.filter (fun s => sessCategory s = "distracting")).map sessDuration).sum := by
  induction ss with
  | nil => intro acc; simp
  | cons s t ih =>
    intro acc
    simp only [List.foldl_cons, List.filter_cons, ih, (dailyAdd_fields acc s).2.2.2.1]
    by_cases h : sessCategory s = "distracting" <;> simp [h] <;> ring

theorem dailyFold_count (ss : List Session) : ∀ acc : DailySummary,
    (ss.foldl dailyAdd acc).num_sessions = acc.num_sessions := by
  induction ss with
  | nil => intro acc; simp
  | cons s t ih =>
    intro acc
    simp only [List.foldl_cons, ih, (dailyAdd_fields acc s).2.2.2.2.1]

theorem insertSeen_mem (a x : String) (l : List String) :
    x ∈ insertSeen a l ↔ x ∈ l ∨ x = a := by
  unfold insertSeen
  split_ifs with h
  · constructor
    · exact fun hx => Or.inl hx
    · rintro (hx | rfl)
      · exact hx
      · exact h
  · simp

theorem insertSeen_nodup (a : String) (l : List String) (h : l.Nodup) :
    (insertSeen a l).Nodup := by
  unfold insertSeen
  split_ifs with hm
  · exact h
  · simpa [List.nodup_append] using ⟨h, hm⟩

theorem seenFold_spec (ss : List Session) : ∀ acc : List String, acc.Nodup →
    ((ss.foldl (fun a s => insertSeen (sessApp s) a) acc).Nodup ∧
      ∀ x, (x ∈ ss.foldl (fun a s => insertSeen (sessApp s) a) acc ↔
        x ∈ acc ∨ x ∈ ss.map sessApp)) := by
  induction ss with
  | nil => intro acc h; simpa using h
  | cons s t ih =>
    intro acc h
    obtain ⟨hn, hm⟩ := ih (insertSeen (sessApp s) acc) (insertSeen_nodup _ _ h)
    refine ⟨hn, fun x => ?_⟩
    rw [List.foldl_cons] at *
    rw [hm x, insertSeen_mem]
    simp only [List.map_cons, List.mem_cons]
    tauto

theorem catFilter_partition (ss : List Session)
    (hcat : ∀ s ∈ ss, s.category = none ∨ sessCategory s ∈ validCategories) :
    ((ss.filter (fun s => sessCategory s = "productive")).map sessDuration).sum +
    ((ss.filter (fun s => sessCategory s = "neutral")).map sessDuration).sum +
    ((ss.filter (fun s => sessCategory s = "distracting")).map sessDuration).sum =
    (ss.map sessDuration).sum := by
  induction ss with
  | nil => simp
  | cons s t ih =>
    have hs := hcat s (List.mem_cons_self s t)
    have ht : ∀ x ∈ t, x.category = none ∨ sessCategory x ∈ validCategories :=
      fun x hx => hcat x (List.mem_cons_of_mem s hx)
    have hc : sessCategory s = "productive" ∨ sessCategory s = "neutral" ∨
        sessCategory s = "distracting" := by
      rcases hs with h | h
      · right; left
        simp [sessCategory, h]
      · simpa [validCategories] using h
    simp only [List.filter_cons, List.map_cons, List.sum_cons]
    rcases hc with h | h | h <;> simp [h] <;> rw [← ih ht] <;> ring

/-- C7 counterexample: a session whose `category` is present but not one of
the three known strings is counted in `total_time` and `num_sessions` but in
no category bucket, so the bucket sums do not add up to `total_time`;
`create_daily_summary` does NOT count it as neutral. -/
theorem c7_counterexample :
    create_daily_summary
      [{ app_name := some "A", start_time := none, end_time := none,
         duration := some 10, category := some "bogus", extra := [] }] =
      { total_time := 10, productive_time := 0, neutral_time := 0,
        distracting_time := 0, num_sessions := 1, num_apps := 1 } ∧
    ¬((10 : Int) = 0 + 0 + 0) := by decide

/-- C7 amended: `create_daily_summary` returns `total_time` equal to the sum
of all session durations, `num_sessions` equal to the list length, `num_apps`
equal to the number of distinct `app_name` values, and per-category sums in
which a session with a MISSING category counts as neutral; a session whose
category is present but outside the three-value set counts in no bucket, so
the bucket sums equal `total_time` only when every category is missing or
valid. -/
theorem c7_daily_spec (ss : List Session)
    (hcat : ∀ s ∈ ss, s.category = none ∨ sessCategory s ∈ validCategories) :
    (create_daily_summary ss).total_time = (ss.map sessDuration).sum ∧
    (create_daily_summary ss).num_sessions = ss.length ∧
    (create_daily_summary ss).num_apps = (ss.map sessApp).dedup.length ∧
    (create_daily_summary ss).productive_time =
      ((ss.filter (fun s => sessCategory s = "productive")).map sessDuration).sum ∧
    (create_daily_summary ss).neutral_time =
      ((ss.filter (fun s => sessCategory s = "neutral")).map sessDuration).sum ∧
    (create_daily_summary ss).distracting_time =
      ((ss.filter (fun s => sessCategory s = "distracting")).map sessDuration).sum ∧
    (create_daily_summary ss).productive_time + (create_daily_summary ss).neutral_time +
      (create_daily_summary ss).distracting_time = (create_daily_summary ss).total_time := by
  have htot : (create_daily_summary ss).total_time = (ss.map sessDuration).sum := by
    simp [create_daily_summary, dailyFold_total]
  have hp : (create_daily_summary ss).productive_time =
      ((ss.filter (fun s => sessCategory s = "productive")).map sessDuration).sum := by
    simp [create_daily_summary, dailyFold_prod]
  have hn : (create_daily_summary ss).neutral_time =
      ((ss.filter (fun s => sessCategory s = "neutral")).map sessDuration).sum := by
    simp [create_daily_summary, dailyFold_neut]
  have hd : (create_daily_summary ss).distracting_time =
      ((ss.filter (fun s => sessCategory s = "distracting")).map sessDuration).sum := by
    simp [create_daily_summary, dailyFold_dist]
  have happs : (create_daily_summary ss).num_apps = (ss.map sessApp).dedup.length := by
    obtain ⟨hnodup, hmem⟩ := seenFold_spec ss [] List.nodup_nil
    have h1 : (ss.foldl (fun a s => insertSeen (sessApp s) a) []).toFinset =
        (ss.map sessApp).dedup.toFinset := by
      apply Finset.ext
      intro x
      simp only [List.mem_toFinset, List.mem_dedup]
      rw [hmem x]
      simp
    have h2 := List.toFinset_card_of_nodup hnodup
    have h3 := List.toFinset_card_of_nodup ((ss.map sessApp).nodup_dedup)
    simp only [create_daily_summary]
    rw [← h2, h1, h3]
  refine ⟨htot, ?_, happs, hp, hn, hd, ?_⟩
  · simp [create_daily_summary, dailyFold_count]
  · rw [htot, hp, hn, hd]
    exact catFilter_partition ss hcat

theorem c7_witness :
    (∀ s ∈ c7ss, s.category = none ∨ sessCategory s ∈ validCategories) ∧
    (create_daily_summary c7ss).productive_time + (create_daily_summary c7ss).neutral_time +
      (create_daily_summary c7ss).distracting_time = (create_daily_summary c7ss).total_time :=
  ⟨by decide, (c7_daily_spec c7ss (by decide)).2.2.2.2.2.2⟩

theorem trends_low_branch (days : Nat) (rep : Nat → DailyLite)
    (h : (((List.range days).filter (fun i => 0 < (rep i).total_time)).length) < 2) :
    calculate_trends days rep =
      { trend_direction := "insufficient_data",
        average_score := (((List.range days).filter (fun i => 0 < (rep i).total_time)).map
          (fun i => (rep i).productivity_score)).headD 0,
        scores := none } := by
  simp only [calculate_trends]
  rw [if_pos (by simpa using h)]

theorem trends_main_branch (days : Nat) (rep : Nat → DailyLite)
    (h : 2 ≤ (((List.range days).filter (fun i => 0 < (rep i).total_time)).length)) :
    calculate_trends days rep =
      (let chron := (((List.range days).filter (fun i => 0 < (rep i).total_time)).map
          (fun i => (rep i).productivity_score)).reverse
       let n := chron.length
       { trend_direction :=
           if (chron.take (n / 2)).sum / ((n / 2 : Nat) : ℚ) + 5 <
              (chron.drop (n / 2)).sum / ((n - n / 2 : Nat) : ℚ) then "improving"
           else if (chron.drop (n / 2)).sum / ((n - n / 2 : Nat) : ℚ) <
              (chron.take (n / 2)).sum / ((n / 2 : Nat) : ℚ) - 5 then "declining"
           else "stable",
         average_score := chron.sum / (n : ℚ),
         scores := some chron }) := by
  simp only [calculate_trends]
  rw [if_neg (by simp only [List.length_map]; omega)]

/-- C9: `calculate_trends` discards days with zero (non-positive) total time;
with fewer than 2 qualifying days it returns the insufficient-data sentinel
with the single qualifying score or 0; otherwise it reverses the qualifying
scores into chronological order, compares the mean of the first floor(n/2)
scores with the mean of the remainder (improving when the second exceeds the
first by more than 5, declining when lower by more than 5, else stable) and
also returns the chronological scores and their overall mean; in particular
chronological scores [25,50,75] yield "improving". -/
theorem c9_trends_spec (days : Nat) (rep : Nat → DailyLite) :
    ((((List.range days).filter (fun i => 0 < (rep i).total_time)).length) < 2 →
      calculate_trends days rep =
        { trend_direction := "insufficient_data",
          average_score := (((List.range days).filter (fun i => 0 < (rep i).total_time)).map
            (fun i => (rep i).productivity_score)).headD 0,
          scores := none }) ∧
    (2 ≤ (((List.range days).filter (fun i => 0 < (rep i).total_time)).length) →
      calculate_trends days rep =
        (let chron := (((List.range days).filter (fun i => 0 < (rep i).total_time)).map
            (fun i => (rep i).productivity_score)).reverse
         let n := chron.length
         { trend_direction :=
             if (chron.take (n / 2)).sum / ((n / 2 : Nat) : ℚ) + 5 <
                (chron.drop (n / 2)).sum / ((n - n / 2 : Nat) : ℚ) then "improving"
             else if (chron.drop (n / 2)).sum / ((n - n / 2 : Nat) : ℚ) <
                (chron.take (n / 2)).sum / ((n / 2 : Nat) : ℚ) - 5 then "declining"
             else "stable",
           average_score := chron.sum / (n : ℚ),
           scores := some chron })) ∧
    (calculate_trends 3
      (fun i => { total_time := 1, productivity_score := 75 - 25 * (i : ℚ) })).trend_direction
      = "improving" :=
  ⟨trends_low_branch days rep, trends_main_branch days rep, by
    rw [trends_main_branch 3 _ (by norm_num [List.range_succ])]
    norm_num [List.range_succ]⟩

theorem c9_witness :
    (((List.range 1).filter
      (fun i => 0 < ((fun _ => ({ total_time := 1, productivity_score := 42 } : DailyLite)) i).total_time)).length) < 2 ∧
    calculate_trends 1 (fun _ => ({ total_time := 1, productivity_score := 42 } : DailyLite)) =
      { trend_direction := "insufficient_data", average_score := 42, scores := none } := by
  have h : (((List.range 1).filter
      (fun i => 0 < ((fun _ => ({ total_time := 1, productivity_score := 42 } : DailyLite)) i).total_time)).length) < 2 := by
    norm_num [List.range_succ]
  refine ⟨h, ?_⟩
  rw [(c9_trends_spec 1 _).1 h]
  norm_num [List.range_succ]

theorem finalize_app (c : Session) : (finalize c).app_name = c.app_name := by
  cases c with
  | mk a st e d cat ex => cases d <;> cases st <;> cases e <;> rfl

theorem finalize_start (c : Session) : (finalize c).start_time = c.start_time := by
  cases c with
  | mk a st e d cat ex => cases d <;> cases st <;> cases e <;> rfl

theorem finalize_end (c : Session) : (finalize c).end_time = c.end_time := by
  cases c with
  | mk a st e d cat ex => cases d <;> cases st <;> cases e <;> rfl

theorem finalize_idem (c : Session) : finalize (finalize c) = finalize c := by
  cases c with
  | mk a st e d cat ex => cases d <;> cases st <;> cases e <;> rfl

theorem finalize_derives (c : Session) :
    (finalize c).start_time.isSome → (finalize c).end_time.isSome →
    (finalize c).duration.isSome := by
  cases c with
  | mk a st e d cat ex =>
    cases d <;> cases st <;> cases e <;> simp [finalize]

theorem mergeStep_eq (gap : Int) (cur s : Session) (sa ca : String)
    (hs : s.app_name = some sa) (hc : cur.app_name = some ca) :
    mergeStep gap cur s =
      Except.ok (decide (sa = ca) && decide (sessStart s - sessEndD0 cur ≤ gap)) := by
  unfold mergeStep
  rw [hs, hc]
  rfl

theorem mergeStep_ok_app (gap : Int) (cur s : Session) (b : Bool)
    (h : mergeStep gap cur s = Except.ok b) :
    ∃ sa ca, s.app_name = some sa ∧ cur.app_name = some ca := by
  cases hs : s.app_name with
  | none => rw [mergeStep, hs] at h; exact absurd h (by simp [keyRead, except_bind_error])
  | some sa =>
    cases hc : cur.app_name with
    | none =>
      rw [mergeStep, hs, hc] at h
      exact absurd h (by simp [keyRead, except_bind_ok, except_bind_error])
    | some ca => exact ⟨sa, ca, rfl, rfl⟩

theorem mergeStep_congr (gap : Int) {a aa b bb : Session}
    (h1 : a.app_name = aa.app_name) (h2 : a.end_time = aa.end_time)
    (h3 : b.app_name = bb.app_name) (h4 : b.start_time = bb.start_time) :
    mergeStep gap a b = mergeStep gap aa bb := by
  unfold mergeStep sessStart sessEndD0
  rw [h1, h2, h3, h4]

theorem mergeAux_cons_inv (gap : Int) (cur s : Session) (rest out : List Session)
    (h : mergeAux gap cur (s :: rest) = Except.ok out) :
    ∃ sa ca, s.app_name = some sa ∧ cur.app_name = some ca ∧
      ((∃ st, cur.start_time = some st ∧ sa = ca ∧ sessStart s - sessEndD0 cur ≤ gap ∧
          mergeAux gap
            { cur with end_time := some (s.end_time.getD (sessStart s)),
                       duration := some (s.end_time.getD (sessStart s) - st) }
            rest = Except.ok out) ∨
       (¬(sa = ca ∧ sessStart s - sessEndD0 cur ≤ gap) ∧
          ∃ out2, mergeAux gap s rest = Except.ok out2 ∧ out = finalize cur :: out2)) := by
  simp only [mergeAux] at h
  cases hms : mergeStep gap cur s with
  | error e => rw [hms, except_bind_error] at h; cases h
  | ok b =>
    obtain ⟨sa, ca, hsa, hca⟩ := mergeStep_ok_app gap cur s b hms
    have hb : b = (decide (sa = ca) && decide (sessStart s - sessEndD0 cur ≤ gap)) := by
      rw [mergeStep_eq gap cur s sa ca hsa hca] at hms
      exact (Except.ok.inj hms).symm
    rw [hms, except_bind_ok] at h
    refine ⟨sa, ca, hsa, hca, ?_⟩
    by_cases hcond : sa = ca ∧ sessStart s - sessEndD0 cur ≤ gap
    · have hb' : b = true := by
        rw [hb]
        simp [hcond.1, hcond.2]
      rw [hb'] at h
      simp only [if_true] at h
      cases hst : cur.start_time with
      | none =>
        rw [hst] at h
        simp only [keyRead, except_bind_error] at h
        cases h
      | some st =>
        rw [hst] at h
        simp only [keyRead, except_bind_ok] at h
        exact Or.inl ⟨st, rfl, hcond.1, hcond.2, h⟩
    · have hb' : b = false := by
        rw [hb]
        rcases not_and_or.mp hcond with hx | hx <;> simp [hx]
      rw [hb'] at h
      simp only [Bool.false_eq_true, if_false] at h
      cases hrec : mergeAux gap s rest with
      | error e =>
        rw [hrec, except_map_error] at h
        cases h
      | ok out2 =>
        rw [hrec, except_map_ok] at h
        exact Or.inr ⟨hcond, out2, rfl, (Except.ok.inj h).symm⟩

theorem sessStart_congr {a b : Session} (h : a.start_time = b.start_time) :
    sessStart a = sessStart b := by
  unfold sessStart
  rw [h]

theorem sessEndD0_congr {a b : Session} (h : a.end_time = b.end_time) :
    sessEndD0 a = sessEndD0 b := by
  unfold sessEndD0
  rw [h]

theorem mergeAux_head (gap : Int) (rest : List Session) : ∀ cur out,
    mergeAux gap cur rest = Except.ok out →
    ∃ o tl, out = o :: tl ∧ o.app_name = cur.app_name ∧ o.start_time = cur.start_time := by
  induction rest with
  | nil =>
    intro cur out h
    simp only [mergeAux] at h
    exact ⟨finalize cur, [], (Except.ok.inj h).symm, finalize_app cur, finalize_start cur⟩
  | cons s rest ih =>
    intro cur out h
    obtain ⟨sa, ca, hsa, hca, hcase⟩ := mergeAux_cons_inv gap cur s rest out h
    rcases hcase with ⟨st, hst, -, -, hrec⟩ | ⟨-, out2, hrec, hout⟩
    · obtain ⟨o, tl, ho, ha, hs2⟩ := ih _ _ hrec
      exact ⟨o, tl, ho, ha, hs2⟩
    · exact ⟨finalize cur, out2, hout, finalize_app cur, finalize_start cur⟩

theorem mergeAux_origin (gap : Int) (rest : List Session) : ∀ cur out,
    mergeAux gap cur rest = Except.ok out → ∀ o ∈ out,
    (o.app_name = cur.app_name ∧ o.start_time = cur.start_time) ∨
      ∃ x ∈ rest, o.app_name = x.app_name ∧ o.start_time = x.start_time := by
  induction rest with
  | nil =>
    intro cur out h o ho
    simp only [mergeAux] at h
    rw [← Except.ok.inj h] at ho
    have : o = finalize cur := by simpa using ho
    subst this
    exact Or.inl ⟨finalize_app cur, finalize_start cur⟩
  | cons s rest ih =>
    intro cur out h o ho
    obtain ⟨sa, ca, hsa, hca, hcase⟩ := mergeAux_cons_inv gap cur s rest out h
    rcases hcase with ⟨st, hst, -, -, hrec⟩ | ⟨-, out2, hrec, hout⟩
    · rcases ih _ _ hrec o ho with h1 | ⟨x, hx, hxx⟩
      · exact Or.inl h1
      · exact Or.inr ⟨x, List.mem_cons_of_mem s hx, hxx⟩
    · rw [hout] at ho
      rcases List.mem_cons.mp ho with rfl | ho2
      · exact Or.inl ⟨finalize_app cur, finalize_start cur⟩
      · rcases ih _ _ hrec o ho2 with h1 | ⟨x, hx, hxx⟩
        · exact Or.inr ⟨s, List.mem_cons_self s rest, h1⟩
        · exact Or.inr ⟨x, List.mem_cons_of_mem s hx, hxx⟩

theorem mergeAux_sorted (gap : Int) (rest : List Session) : ∀ cur out,
    (cur :: rest).Pairwise (keyLe sessStart) →
    mergeAux gap cur rest = Except.ok out → out.Pairwise (keyLe sessStart) := by
  induction rest with
  | nil =>
    intro cur out _ h
    simp only [mergeAux] at h
    rw [← Except.ok.inj h]
    simp
  | cons s rest ih =>
    intro cur out hp h
    obtain ⟨hp1, hp2⟩ := List.pairwise_cons.mp hp
    obtain ⟨sa, ca, hsa, hca, hcase⟩ := mergeAux_cons_inv gap cur s rest out h
    rcases hcase with ⟨st, hst, -, -, hrec⟩ | ⟨-, out2, hrec, hout⟩
    · refine ih _ _ ?_ hrec
      rw [List.pairwise_cons]
      refine ⟨fun y hy => ?_, (List.pairwise_cons.mp hp2).2⟩
      exact hp1 y (List.mem_cons_of_mem s hy)
    · rw [hout, List.pairwise_cons]
      refine ⟨fun o ho2 => ?_, ih _ _ hp2 hrec⟩
      have hstart : sessStart (finalize cur) = sessStart cur :=
        sessStart_congr (finalize_start cur)
      rcases mergeAux_origin gap rest s out2 hrec o ho2 with ⟨-, h1⟩ | ⟨x, hx, -, h1⟩
      · have : sessStart o = sessStart s := sessStart_congr h1
        unfold keyLe
        rw [hstart, this]
        exact hp1 s (List.mem_cons_self s rest)
      · have : sessStart o = sessStart x := sessStart_congr h1
        unfold keyLe
        rw [hstart, this]
        exact hp1 x (List.mem_cons_of_mem s hx)

theorem mergeAux_chain (gap : Int) (rest : List Session) : ∀ cur out,
    mergeAux gap cur rest = Except.ok out →
    out.Chain' (fun a b => mergeStep gap a b = Except.ok false) := by
  induction rest with
  | nil =>
    intro cur out h
    simp only [mergeAux] at h
    rw [← Except.ok.inj h]
    simp
  | cons s rest ih =>
    intro cur out h
    obtain ⟨sa, ca, hsa, hca, hcase⟩ := mergeAux_cons_inv gap cur s rest out h
    rcases hcase with ⟨st, hst, -, -, hrec⟩ | ⟨hcond, out2, hrec, hout⟩
    · exact ih _ _ hrec
    · rw [hout]
      obtain ⟨o2, tl2, ho2, ha2, hst2⟩ := mergeAux_head gap rest s out2 hrec
      rw [ho2]
      rw [List.chain'_cons]
      constructor
      · have hcongr : mergeStep gap (finalize cur) o2 = mergeStep gap cur s :=
          mergeStep_congr gap (finalize_app cur) (finalize_end cur) ha2 hst2
        rw [hcongr, mergeStep_eq gap cur s sa ca hsa hca]
        have : (decide (sa = ca) && decide (sessStart s - sessEndD0 cur ≤ gap)) = false := by
          rcases not_and_or.mp hcond with hx | hx <;> simp [hx]
        rw [this]
      · have := ih _ _ hrec
        rw [ho2] at this
        exact this

theorem mergeAux_stable (gap : Int) (rest : List Session) : ∀ cur out,
    mergeAux gap cur rest = Except.ok out → ∀ o ∈ out, finalize o = o := by
  induction rest with
  | nil =>
    intro cur out h o ho
    simp only [mergeAux] at h
    rw [← Except.ok.inj h] at ho
    have : o = finalize cur := by simpa using ho
    rw [this]
    exact finalize_idem cur
  | cons s rest ih =>
    intro cur out h o ho
    obtain ⟨sa, ca, hsa, hca, hcase⟩ := mergeAux_cons_inv gap cur s rest out h
    rcases hcase with ⟨st, hst, -, -, hrec⟩ | ⟨-, out2, hrec, hout⟩
    · exact ih _ _ hrec o ho
    · rw [hout] at ho
      rcases List.mem_cons.mp ho with rfl | ho2
      · exact finalize_idem cur
      · exact ih _ _ hrec o ho2

theorem mergeAux_self (gap : Int) (tl : List Session) : ∀ o : Session,
    (o :: tl).Chain' (fun a b => mergeStep gap a b = Except.ok false) →
    (∀ x ∈ o :: tl, finalize x = x) →
    mergeAux gap o tl = Except.ok (o :: tl) := by
  induction tl with
  | nil =>
    intro o _ hstable
    simp only [mergeAux]
    rw [hstable o (List.mem_cons_self o [])]
  | cons b tl ih =>
    intro o hchain hstable
    have h1 : mergeStep gap o b = Except.ok false := (List.chain'_cons.mp hchain).1
    simp only [mergeAux]
    rw [h1, except_bind_ok]
    simp only [Bool.false_eq_true, if_false]
    rw [ih b (List.chain'_cons.mp hchain).2
      (fun x hx => hstable x (List.mem_cons_of_mem o hx))]
    rw [except_map_ok, hstable o (List.mem_cons_self o (b :: tl))]

theorem mergeAux_nonoverlap (gap : Int) (rest : List Session) : ∀ cur out,
    (∀ x ∈ cur :: rest, x.end_time.isSome) →
    (cur :: rest).Pairwise (fun a b => sessEndD0 a ≤ sessStart b) →
    mergeAux gap cur rest = Except.ok out →
    out.Pairwise (fun a b => sessEndD0 a ≤ sessStart b) := by
  induction rest with
  | nil =>
    intro cur out _ _ h
    simp only [mergeAux] at h
    rw [← Except.ok.inj h]
    simp
  | cons s rest ih =>
    intro cur out hend hno h
    obtain ⟨hno1, hno2⟩ := List.pairwise_cons.mp hno
    obtain ⟨sa, ca, hsa, hca, hcase⟩ := mergeAux_cons_inv gap cur s rest out h
    rcases hcase with ⟨st, hst, -, -, hrec⟩ | ⟨-, out2, hrec, hout⟩
    · obtain ⟨se, hse⟩ := Option.isSome_iff_exists.mp
        (hend s (List.mem_cons_of_mem cur (List.mem_cons_self s rest)))
      have hseD : s.end_time.getD (sessStart s) = sessEndD0 s := by
        simp [sessEndD0, hse]
      refine ih _ _ ?_ ?_ hrec
      · intro x hx
        rcases List.mem_cons.mp hx with rfl | hx2
        · simp
        · exact hend x (List.mem_cons_of_mem cur (List.mem_cons_of_mem s hx2))
      · rw [List.pairwise_cons]
        refine ⟨fun y hy => ?_, (List.pairwise_cons.mp hno2).2⟩
        have h1 : sessEndD0
            { cur with end_time := some (s.end_time.getD (sessStart s)),
                       duration := some (s.end_time.getD (sessStart s) - st) } =
            sessEndD0 s := by
          simp [sessEndD0, hse]
        rw [h1]
        exact (List.pairwise_cons.mp hno2).1 y hy
    · rw [hout, List.pairwise_cons]
      constructor
      · intro o ho2
        have he : sessEndD0 (finalize cur) = sessEndD0 cur :=
          sessEndD0_congr (finalize_end cur)
        rcases mergeAux_origin gap rest s out2 hrec o ho2 with ⟨-, h1⟩ | ⟨x, hx, -, h1⟩
        · rw [he, sessStart_congr h1]
          exact hno1 s (List.mem_cons_self s rest)
        · rw [he, sessStart_congr h1]
          exact hno1 x (List.mem_cons_of_mem s hx)
      · refine ih _ _ ?_ hno2 hrec
        intro x hx
        exact hend x (List.mem_cons_of_mem cur hx)

theorem mergeAux_duration (gap : Int) (rest : List Session) : ∀ cur out,
    (∀ x ∈ cur :: rest, x.start_time.isSome ∧ x.end_time.isSome ∧
      (x.duration = none ∨ x.duration = some (sessEndD0 x - sessStart x))) →
    mergeAux gap cur rest = Except.ok out →
    ∀ o ∈ out, o.duration = some (sessEndD0 o - sessStart o) := by
  have hfin : ∀ c : Session, c.start_time.isSome → c.end_time.isSome →
      (c.duration = none ∨ c.duration = some (sessEndD0 c - sessStart c)) →
      (finalize c).duration = some (sessEndD0 (finalize c) - sessStart (finalize c)) := by
    intro c hs he hd
    obtain ⟨st, hst⟩ := Option.isSome_iff_exists.mp hs
    obtain ⟨e, hee⟩ := Option.isSome_iff_exists.mp he
    rcases hd with hd | hd
    · cases c with
      | mk a st2 e2 d2 cat ex =>
        simp only at hst hee hd
        subst hst hee hd
        simp [finalize, sessEndD0, sessStart]
    · cases c with
      | mk a st2 e2 d2 cat ex =>
        simp only at hst hee
        subst hst hee
        simp only [sessEndD0, sessStart] at hd
        subst hd
        simp [finalize, sessEndD0, sessStart]
  induction rest with
  | nil =>
    intro cur out hc h o ho
    simp only [mergeAux] at h
    rw [← Except.ok.inj h] at ho
    have : o = finalize cur := by simpa using ho
    subst this
    obtain ⟨h1, h2, h3⟩ := hc cur (List.mem_cons_self cur [])
    exact hfin cur h1 h2 h3
  | cons s rest ih =>
    intro cur out hc h o ho
    obtain ⟨sa, ca, hsa, hca, hcase⟩ := mergeAux_cons_inv gap cur s rest out h
    rcases hcase with ⟨st, hst, -, -, hrec⟩ | ⟨-, out2, hrec, hout⟩
    · refine ih _ _ ?_ hrec o ho
      intro x hx
      rcases List.mem_cons.mp hx with rfl | hx2
      · refine ⟨by simp [hst], by simp, Or.inr ?_⟩
        simp only [sessEndD0, sessStart, hst]
        rfl
      · exact hc x (List.mem_cons_of_mem cur (List.mem_cons_of_mem s hx2))
    · rw [hout] at ho
      rcases List.mem_cons.mp ho with rfl | ho2
      · obtain ⟨h1, h2, h3⟩ := hc cur (List.mem_cons_self cur (s :: rest))
        exact hfin cur h1 h2 h3
      · refine ih _ _ ?_ hrec o ho2
        intro x hx
        exact hc x (List.mem_cons_of_mem cur hx)

theorem mergeAux_ok (gap : Int) (rest : List Session) : ∀ cur : Session,
    cur.app_name.isSome → cur.start_time.isSome →
    (∀ x ∈ rest, x.app_name.isSome ∧ x.start_time.isSome) →
    ∃ out, mergeAux gap cur rest = Except.ok out ∧
      ∀ o ∈ out, o.start_time.isSome → o.end_time.isSome → o.duration.isSome := by
  induction rest with
  | nil =>
    intro cur _ _ _
    refine ⟨[finalize cur], rfl, ?_⟩
    intro o ho
    have : o = finalize cur := by simpa using ho
    subst this
    exact finalize_derives cur
  | cons s rest ih =>
    intro cur hca hcs hr
    obtain ⟨sa, hsa⟩ := Option.isSome_iff_exists.mp (hr s (List.mem_cons_self s rest)).1
    obtain ⟨ca, hcaa⟩ := Option.isSome_iff_exists.mp hca
    obtain ⟨st, hst⟩ := Option.isSome_iff_exists.mp hcs
    have hr2 : ∀ x ∈ rest, x.app_name.isSome ∧ x.start_time.isSome :=
      fun x hx => hr x (List.mem_cons_of_mem s hx)
    by_cases hcond : sa = ca ∧ sessStart s - sessEndD0 cur ≤ gap
    · obtain ⟨out, hout, hprop⟩ := ih
        { cur with end_time := some (s.end_time.getD (sessStart s)),
                   duration := some (s.end_time.getD (sessStart s) - st) }
        (by simpa using hca) (by simpa using hcs) hr2
      refine ⟨out, ?_, hprop⟩
      simp only [mergeAux]
      rw [mergeStep_eq gap cur s sa ca hsa hcaa, except_bind_ok]
      have hb : (decide (sa = ca) && decide (sessStart s - sessEndD0 cur ≤ gap)) = true := by
        simp [hcond.1, hcond.2]
      rw [hb]
      simp only [if_true]
      have hkr : keyRead cur.start_time "KeyError: start_time" = Except.ok st := by
        rw [hst]
        rfl
      rw [hkr, except_bind_ok]
      exact hout
    · obtain ⟨out, hout, hprop⟩ := ih s (hr s (List.mem_cons_self s rest)).1
        (hr s (List.mem_cons_self s rest)).2 hr2
      refine ⟨finalize cur :: out, ?_, ?_⟩
      · simp only [mergeAux]
        rw [mergeStep_eq gap cur s sa ca hsa hcaa, except_bind_ok]
        have hb : (decide (sa = ca) && decide (sessStart s - sessEndD0 cur ≤ gap)) = false := by
          rcases not_and_or.mp hcond with hx | hx <;> simp [hx]
        rw [hb]
        simp only [Bool.false_eq_true, if_false]
        rw [hout, except_map_ok]
      · intro o ho
        rcases List.mem_cons.mp ho with rfl | ho2
        · exact finalize_derives cur
        · exact hprop o ho2

theorem sortSessions_sorted (ss : List Session) :
    (sortSessions ss).Pairwise (keyLe sessStart) :=
  List.sorted_insertionSort (keyLe sessStart) ss

theorem mem_sortSessions {x : Session} {ss : List Session} :
    x ∈ sortSessions ss ↔ x ∈ ss :=
  (List.perm_insertionSort (keyLe sessStart) ss).mem_iff

/-- C4: on any structurally valid session list in which each record has at
least `app_name` and `start_time` (the fields the source reads with raw
indexing), `merge_consecutive_sessions` returns normally (no KeyError) and
fills a derived `duration` into every output record that has both timestamps.
The remaining aggregation functions (`create_hourly_summary`,
`create_daily_summary`, `filter_short_sessions`, `compress_old_data`) read
every field through `dict.get` with a documented default and are therefore
embedded as total functions: they cannot raise on any input by construction. -/
theorem c4_merge_no_raise (gap : Int) (ss : List Session)
    (h : ∀ s ∈ ss, s.app_name.isSome ∧ s.start_time.isSome) :
    ∃ out, merge_consecutive_sessions gap ss = Except.ok out ∧
      ∀ o ∈ out, o.start_time.isSome → o.end_time.isSome → o.duration.isSome := by
  unfold merge_consecutive_sessions
  cases hs : sortSessions ss with
  | nil => exact ⟨[], rfl, by simp⟩
  | cons c rest =>
    have hmem : ∀ x ∈ c :: rest, x.app_name.isSome ∧ x.start_time.isSome := by
      intro x hx
      apply h
      rw [← @mem_sortSessions x ss, hs]
      exact hx
    exact mergeAux_ok gap rest c (hmem c (List.mem_cons_self c rest)).1
      (hmem c (List.mem_cons_self c rest)).2
      (fun x hx => hmem x (List.mem_cons_of_mem c hx))

theorem c4_witness :
    (∀ s ∈ [openSession], s.app_name.isSome ∧ s.start_time.isSome) ∧
    (∃ out, merge_consecutive_sessions 10 [openSession] = Except.ok out ∧
      ∀ o ∈ out, o.start_time.isSome → o.end_time.isSome → o.duration.isSome) :=
  ⟨by decide, c4_merge_no_raise 10 [openSession] (by decide)⟩

/-- C1 counterexample.  First input: two overlapping sessions of different
apps pass through the merge untouched, so the output intervals overlap.
Second input: two same-app sessions 5 seconds apart merge into one record
whose `duration` (20) includes the gap, and is not the sum (15) of the run's
input durations. -/
theorem c1_counterexample :
    (merge_consecutive_sessions 10 [mkS "A" 0 100, mkS "B" 0 100] =
      Except.ok [sessA0_100, sessB0_100] ∧
      sessStart sessB0_100 < sessEndD0 sessA0_100) ∧
    (merge_consecutive_sessions 10 [mkS "A" 0 10, mkS "A" 15 20] =
      Except.ok [sessA0_20] ∧
      (20 : Int) ≠ (10 - 0) + (20 - 15)) := by decide

/-- C1 amended: for complete sessions (all three core keys present;
`duration`, if present, the derived value), the output of
`merge_consecutive_sessions` is sorted ascending by `start_time`; WHEN the
sorted input is itself pairwise non-overlapping, the output intervals are
pairwise non-overlapping; and each output segment's `duration` equals its
`end_time - start_time` — the run's input durations plus the inter-session
gaps — not the gap-free sum of input durations. -/
theorem c1_merge_spec (gap : Int) (ss out : List Session)
    (hc : ∀ s ∈ ss, CompleteSession s)
    (h : merge_consecutive_sessions gap ss = Except.ok out) :
    out.Pairwise (keyLe sessStart) ∧
    ((sortSessions ss).Pairwise (fun a b => sessEndD0 a ≤ sessStart b) →
      out.Pairwise (fun a b => sessEndD0 a ≤ sessStart b)) ∧
    (∀ o ∈ out, o.duration = some (sessEndD0 o - sessStart o)) := by
  unfold merge_consecutive_sessions at h
  cases hs : sortSessions ss with
  | nil =>
    rw [hs] at h
    rw [← Except.ok.inj h]
    simp
  | cons c rest =>
    rw [hs] at h
    have hc2 : ∀ x ∈ c :: rest, CompleteSession x := by
      intro x hx
      apply hc
      rw [← @mem_sortSessions x ss, hs]
      exact hx
    have hsorted : (c :: rest).Pairwise (keyLe sessStart) := by
      have := sortSessions_sorted ss
      rw [hs] at this
      exact this
    refine ⟨mergeAux_sorted gap rest c out hsorted h, fun hno => ?_, ?_⟩
    · exact mergeAux_nonoverlap gap rest c out
        (fun x hx => (hc2 x hx).2.2.1) hno h
    · exact mergeAux_duration gap rest c out
        (fun x hx => ⟨(hc2 x hx).2.1, (hc2 x hx).2.2.1, (hc2 x hx).2.2.2⟩) h

theorem c1_witness :
    (∀ s ∈ [mkS "A" 0 10, mkS "A" 12 20], CompleteSession s) ∧
    merge_consecutive_sessions 10 [mkS "A" 0 10, mkS "A" 12 20] =
      Except.ok [sessA0_20] ∧
    ∀ o ∈ [sessA0_20], o.duration = some (sessEndD0 o - sessStart o) :=
  ⟨by decide, by decide,
    (c1_merge_spec 10 [mkS "A" 0 10, mkS "A" 12 20] [sessA0_20]
      (by decide) (by decide)).2.2⟩

/-- C6: `merge_consecutive_sessions` is idempotent — whenever it returns a
merged list, running it again on that list returns the same list
unchanged. -/
theorem c6_merge_idem (gap : Int) (ss out : List Session)
    (h : merge_consecutive_sessions gap ss = Except.ok out) :
    merge_consecutive_sessions gap out = Except.ok out := by
  unfold merge_consecutive_sessions at h ⊢
  cases hs : sortSessions ss with
  | nil =>
    rw [hs] at h
    rw [← Except.ok.inj h]
    rfl
  | cons c rest =>
    rw [hs] at h
    have hsorted : (c :: rest).Pairwise (keyLe sessStart) := by
      have := sortSessions_sorted ss
      rw [hs] at this
      exact this
    have hout_sorted : out.Pairwise (keyLe sessStart) :=
      mergeAux_sorted gap rest c out hsorted h
    have hchain := mergeAux_chain gap rest c out h
    have hstable := mergeAux_stable gap rest c out h
    obtain ⟨o, tl, ho, -, -⟩ := mergeAux_head gap rest c out h
    have hsid : sortSessions out = out := List.Sorted.insertionSort_eq hout_sorted
    rw [hsid, ho]
    rw [ho] at hchain hstable
    exact mergeAux_self gap tl o hchain hstable

theorem c6_witness :
    merge_consecutive_sessions 10 [mkS "A" 0 10, mkS "A" 50 60] =
      Except.ok [sessA0_10, sessA50_60] ∧
    merge_consecutive_sessions 10 [sessA0_10, sessA50_60] =
      Except.ok [sessA0_10, sessA50_60] :=
  ⟨by decide,
    c6_merge_idem 10 [mkS "A" 0 10, mkS "A" 50 60] [sessA0_10, sessA50_60] (by decide)⟩

theorem hourFloor_le (t : Int) : hourFloor t ≤ t := by
  unfold hourFloor
  rw [Int.fdiv_eq_ediv _ (by norm_num)]
  exact Int.ediv_mul_le t (by norm_num)

theorem lt_hourFloor_add (t : Int) : t < hourFloor t + 3600 := by
  unfold hourFloor
  rw [Int.fdiv_eq_ediv _ (by norm_num)]
  have := Int.lt_ediv_add_one_mul_self t (by norm_num : (0 : Int) < 3600)
  linarith

theorem hourFloor_mono {a b : Int} (h : a ≤ b) : hourFloor a ≤ hourFloor b := by
  unfold hourFloor
  rw [Int.fdiv_eq_ediv _ (by norm_num), Int.fdiv_eq_ediv _ (by norm_num)]
  exact mul_le_mul_of_nonneg_right (Int.ediv_le_ediv (by norm_num) h) (by norm_num)

theorem hourFloor_sub (a b : Int) : ∃ m : Int, hourFloor b - hourFloor a = 3600 * m :=
  ⟨b.fdiv 3600 - a.fdiv 3600, by unfold hourFloor; ring⟩

theorem middleHours_mem {sh eh h : Int} :
    h ∈ middleHours sh eh ↔
      ∃ i : Nat, (i : Int) < (eh - sh - 1).fdiv 3600 ∧ h = sh + 3600 * ((i : Int) + 1) := by
  unfold middleHours
  rw [List.mem_map]
  constructor
  · rintro ⟨i, hi, rfl⟩
    rw [List.mem_range, Int.lt_toNat] at hi
    exact ⟨i, hi, rfl⟩
  · rintro ⟨i, hi, rfl⟩
    refine ⟨i, ?_, rfl⟩
    rw [List.mem_range, Int.lt_toNat]
    exact hi

theorem middleHours_bounds {sh eh h : Int} (hm : h ∈ middleHours sh eh) :
    sh < h ∧ h < eh := by
  obtain ⟨i, hi, rfl⟩ := middleHours_mem.mp hm
  have hnn : (0 : Int) ≤ (i : Int) := Int.natCast_nonneg i
  constructor
  · nlinarith
  · have h1 : (i : Int) + 1 ≤ (eh - sh - 1).fdiv 3600 := by omega
    have h2 : (eh - sh - 1).fdiv 3600 * 3600 ≤ eh - sh - 1 := by
      rw [Int.fdiv_eq_ediv _ (by norm_num)]
      exact Int.ediv_mul_le _ (by norm_num)
    nlinarith

theorem middleHours_nodup (sh eh : Int) : (middleHours sh eh).Nodup := by
  unfold middleHours
  apply List.Nodup.map
  · intro i j hij
    simp only at hij
    omega
  · exact List.nodup_range _

theorem middleHours_length_eq (sh eh m : Int) (hm : eh - sh = 3600 * m) (h1 : 1 ≤ m) :
    ((middleHours sh eh).length : Int) = m - 1 := by
  unfold middleHours
  rw [List.length_map, List.length_range]
  have h2 : (eh - sh - 1).fdiv 3600 = m - 1 := by
    rw [Int.fdiv_eq_ediv _ (by norm_num), hm]
    omega
  rw [h2]
  omega

theorem sum_map_const_int (l : List α) (c : Int) : (l.map (fun _ => c)).sum = l.length * c := by
  induction l with
  | nil => simp
  | cons a t ih =>
    simp [ih]
    push_cast
    ring

theorem sum_map_add_int (S : List α) (f g : α → Int) :
    (S.map (fun s => f s + g s)).sum = (S.map f).sum + (S.map g).sum := by
  induction S with
  | nil => simp
  | cons a t ih =>
    simp [ih]
    ring

theorem sessionHours_nodup (s : Session) : (sessionHours s).Nodup := by
  unfold sessionHours
  by_cases heq : hourFloor (sessStart s) = hourFloor (sessEnd s)
  · simp [heq]
  · simp only [heq, if_false]
    rw [List.nodup_cons]
    constructor
    · intro hmem
      rcases List.mem_append.mp hmem with hm | hm
      · exact absurd (middleHours_bounds hm).1 (lt_irrefl _)
      · split_ifs at hm with hc
        · exact heq (by simpa using hm)
        · simp at hm
    · rw [List.nodup_append]
      refine ⟨middleHours_nodup _ _, ?_, ?_⟩
      · split_ifs <;> simp
      · intro x hx hx2
        have hb := (middleHours_bounds hx).2
        split_ifs at hx2 with hc
        · have hxe : x = hourFloor (sessEnd s) := by simpa using hx2
          rw [hxe] at hb
          exact lt_irrefl _ hb
        · simp at hx2

theorem sessionHours_bounds (s : Session) (hse : sessStart s ≤ sessEnd s) {h : Int}
    (hm : h ∈ sessionHours s) :
    hourFloor (sessStart s) ≤ h ∧ h ≤ hourFloor (sessEnd s) := by
  unfold sessionHours at hm
  by_cases heq : hourFloor (sessStart s) = hourFloor (sessEnd s)
  · simp only [heq, if_pos rfl] at hm
    have : h = hourFloor (sessEnd s) := by simpa using hm
    rw [this]
    exact ⟨le_of_eq heq, le_refl _⟩
  · simp only [heq, if_false] at hm
    rcases List.mem_cons.mp hm with rfl | hm2
    · exact ⟨le_refl _, hourFloor_mono hse⟩
    · rcases List.mem_append.mp hm2 with hmid | htail
      · have hb := middleHours_bounds hmid
        exact ⟨le_of_lt hb.1, le_of_lt hb.2⟩
      · split_ifs at htail with hc
        · have : h = hourFloor (sessEnd s) := by simpa using htail
          rw [this]
          exact ⟨hourFloor_mono hse, le_refl _⟩
        · simp at htail

theorem sessionContrib_zero (s : Session) (h : Int) (hnm : h ∉ sessionHours s) :
    sessionContrib s h = 0 := by
  unfold sessionHours at hnm
  unfold sessionContrib
  by_cases heq : hourFloor (sessStart s) = hourFloor (sessEnd s)
  · simp only [heq, if_pos rfl] at hnm ⊢
    have : ¬(h = hourFloor (sessEnd s)) := by simpa using hnm
    simp [this]
  · simp only [heq, if_false] at hnm ⊢
    have h1 : ¬(h = hourFloor (sessStart s)) := fun he => hnm (he ▸ List.mem_cons_self _ _)
    have h2 : h ∉ middleHours (hourFloor (sessStart s)) (hourFloor (sessEnd s)) := by
      intro hx
      exact hnm (List.mem_cons_of_mem _ (List.mem_append.mpr (Or.inl hx)))
    have h3 : ¬(h = hourFloor (sessEnd s) ∧ 0 < sessEnd s - hourFloor (sessEnd s)) := by
      rintro ⟨rfl, hpos⟩
      refine hnm (List.mem_cons_of_mem _ (List.mem_append.mpr (Or.inr ?_)))
      simp [hpos]
    rw [if_neg h1, if_neg h2, if_neg h3]
    norm_num

theorem sessionHours_sum (s : Session) (hse : sessStart s ≤ sessEnd s) :
    ((sessionHours s).map (sessionContrib s)).sum = sessEnd s - sessStart s := by
  have hehle : hourFloor (sessEnd s) ≤ sessEnd s := hourFloor_le _
  have hstlt : sessStart s < hourFloor (sessStart s) + 3600 := lt_hourFloor_add _
  by_cases heq : hourFloor (sessStart s) = hourFloor (sessEnd s)
  · unfold sessionHours sessionContrib
    simp [heq]
  · have hlt : hourFloor (sessStart s) < hourFloor (sessEnd s) :=
      lt_of_le_of_ne (hourFloor_mono hse) heq
    obtain ⟨m, hm⟩ := hourFloor_sub (sessStart s) (sessEnd s)
    have hm1 : 1 ≤ m := by nlinarith
    have hlen := middleHours_length_eq (hourFloor (sessStart s)) (hourFloor (sessEnd s)) m hm hm1
    have hcsh : sessionContrib s (hourFloor (sessStart s)) =
        hourFloor (sessStart s) + 3600 - sessStart s := by
      unfold sessionContrib
      have hnm : hourFloor (sessStart s) ∉
          middleHours (hourFloor (sessStart s)) (hourFloor (sessEnd s)) :=
        fun hx => absurd (middleHours_bounds hx).1 (lt_irrefl _)
      have h3 : ¬(hourFloor (sessStart s) = hourFloor (sessEnd s) ∧
          0 < sessEnd s - hourFloor (sessEnd s)) := fun hx => heq hx.1
      rw [if_neg heq, if_pos rfl, if_neg hnm, if_neg h3]
      norm_num
    have hcm : ∀ h ∈ middleHours (hourFloor (sessStart s)) (hourFloor (sessEnd s)),
        sessionContrib s h = 3600 := by
      intro h hh
      have hb := middleHours_bounds hh
      unfold sessionContrib
      have h1 : ¬(h = hourFloor (sessStart s)) := by omega
      have h3 : ¬(h = hourFloor (sessEnd s) ∧ 0 < sessEnd s - hourFloor (sessEnd s)) := by
        rintro ⟨rfl, -⟩
        exact lt_irrefl _ hb.2
      rw [if_neg heq, if_neg h1, if_pos hh, if_neg h3]
      norm_num
    unfold sessionHours
    rw [if_neg heq]
    rw [List.map_cons, List.sum_cons, List.map_append, List.sum_append]
    rw [hcsh, List.map_congr_left hcm, sum_map_const_int]
    by_cases hc : 0 < sessEnd s - hourFloor (sessEnd s)
    · have hceh : sessionContrib s (hourFloor (sessEnd s)) =
          sessEnd s - hourFloor (sessEnd s) := by
        unfold sessionContrib
        have h1 : ¬(hourFloor (sessEnd s) = hourFloor (sessStart s)) := fun hx => heq hx.symm
        have h2 : hourFloor (sessEnd s) ∉
            middleHours (hourFloor (sessStart s)) (hourFloor (sessEnd s)) :=
          fun hx => absurd (middleHours_bounds hx).2 (lt_irrefl _)
        rw [if_neg heq, if_neg h1, if_neg h2, if_pos ⟨rfl, hc⟩]
        norm_num
      rw [if_pos hc]
      rw [List.map_cons, List.map_nil, List.sum_cons, List.sum_nil, hceh]
      omega
    · rw [if_neg hc]
      rw [List.map_nil, List.sum_nil]
      omega

theorem sum_eq_of_zero_off (K H : List Int) (f : Int → Int) (hK : K.Nodup) (hH : H.Nodup)
    (hsub : ∀ x ∈ H, x ∈ K) (hzero : ∀ x ∈ K, x ∉ H → f x = 0) :
    (K.map f).sum = (H.map f).sum := by
  rw [← List.sum_toFinset f hK, ← List.sum_toFinset f hH]
  symm
  apply Finset.sum_subset
  · intro x hx
    rw [List.mem_toFinset] at hx ⊢
    exact hsub x hx
  · intro x hx hnx
    exact hzero x (List.mem_toFinset.mp hx) (fun hmem => hnx (List.mem_toFinset.mpr hmem))

theorem list_sum_comm (K : List Int) (S : List Session) (f : Session → Int → Int) :
    (K.map (fun h => (S.map (fun s => f s h)).sum)).sum =
      (S.map (fun s => (K.map (f s)).sum)).sum := by
  induction K with
  | nil => simp
  | cons h K ih =>
    simp only [List.map_cons, List.sum_cons]
    rw [ih, ← sum_map_add_int]

/-- C2: for sessions with both timestamps present (and the data-model
invariant `start_time <= end_time`), `create_hourly_summary` returns buckets
strictly ascending by `hour_start`, every bucket's hour is spanned by some
input session, and the bucket totals sum to the sum of `end_time -
start_time` over the input. -/
theorem c2_hourly_spec (ss : List Session)
    (hc : ∀ s ∈ ss, s.start_time.isSome ∧ s.end_time.isSome ∧ sessStart s ≤ sessEnd s) :
    (create_hourly_summary ss).Pairwise (fun a b => a.hour_start < b.hour_start) ∧
    (∀ b ∈ create_hourly_summary ss, ∃ s ∈ ss,
        hourFloor (sessStart s) ≤ b.hour_start ∧ b.hour_start ≤ hourFloor (sessEnd s)) ∧
    ((create_hourly_summary ss).map HourBucket.total_duration).sum =
      (ss.map (fun s => sessEnd s - sessStart s)).sum := by
  by_cases hempty : ss.isEmpty
  · have : ss = [] := List.isEmpty_iff.mp hempty
    subst this
    simp [create_hourly_summary]
  · unfold create_hourly_summary
    rw [if_neg hempty]
    have hKperm : List.Perm (sortByKey id (ss.flatMap sessionHours).dedup)
        (ss.flatMap sessionHours).dedup := List.perm_insertionSort _ _
    have hKnodup : (sortByKey id (ss.flatMap sessionHours).dedup).Nodup :=
      (hKperm.nodup_iff).mpr ((ss.flatMap sessionHours).nodup_dedup)
    have hKsorted : (sortByKey id (ss.flatMap sessionHours).dedup).Pairwise (keyLe id) :=
      List.sorted_insertionSort _ _
    refine ⟨?_, ?_, ?_⟩
    · rw [List.pairwise_map]
      exact (List.Pairwise.and hKsorted hKnodup).imp
        (fun hab => lt_of_le_of_ne hab.1 hab.2)
    · intro b hb
      rw [List.mem_map] at hb
      obtain ⟨h, hhK, rfl⟩ := hb
      have hhD : h ∈ (ss.flatMap sessionHours).dedup := hKperm.mem_iff.mp hhK
      rw [List.mem_dedup, List.mem_flatMap] at hhD
      obtain ⟨s, hsS, hsh⟩ := hhD
      exact ⟨s, hsS, sessionHours_bounds s (hc s hsS).2.2 hsh⟩
    · rw [List.map_map]
      have hcomp : (HourBucket.total_duration ∘ fun h =>
          ({ hour_start := h,
             total_duration := (ss.map (fun s => sessionContrib s h)).sum } : HourBucket)) =
          fun h => (ss.map (fun s => sessionContrib s h)).sum := rfl
      rw [hcomp]
      rw [(hKperm.map _).sum_eq]
      rw [list_sum_comm]
      have hper : ∀ s ∈ ss,
          ((ss.flatMap sessionHours).dedup.map (sessionContrib s)).sum =
            sessEnd s - sessStart s := by
        intro s hsS
        rw [sum_eq_of_zero_off (ss.flatMap sessionHours).dedup (sessionHours s)
          (sessionContrib s) ((ss.flatMap sessionHours).nodup_dedup)
          (sessionHours_nodup s)
          (fun x hx => by
            rw [List.mem_dedup, List.mem_flatMap]
            exact ⟨s, hsS, hx⟩)
          (fun x _ hnx => sessionContrib_zero s x hnx)]
        exact sessionHours_sum s (hc s hsS).2.2
      rw [List.map_congr_left hper]

theorem c2_witness :
    (∀ s ∈ [mkS "firefox" 0 1800, mkS "vscode" 1800 5400, mkS "discord" 5400 7200],
      s.start_time.isSome ∧ s.end_time.isSome ∧ sessStart s ≤ sessEnd s) ∧
    ((create_hourly_summary
        [mkS "firefox" 0 1800, mkS "vscode" 1800 5400, mkS "discord" 5400 7200]).map
      HourBucket.total_duration).sum =
      ([mkS "firefox" 0 1800, mkS "vscode" 1800 5400, mkS "discord" 5400 7200].map
        (fun s => sessEnd s - sessStart s)).sum :=
  ⟨by decide,
    (c2_hourly_spec [mkS "firefox" 0 1800, mkS "vscode" 1800 5400, mkS "discord" 5400 7200]
      (by decide)).2.2⟩

example :
    create_hourly_summary
      [mkS "firefox" 0 1800, mkS "vscode" 1800 5400, mkS "discord" 5400 7200] =
    [{ hour_start := 0, total_duration := 3600 },
     { hour_start := 3600, total_duration := 3600 }] := by decide

theorem hget_hset_ne (h : Heap) (r r2 : Nat) (s : Session) (hne : r ≠ r2) :
    hget (hset h r2 s) r = hget h r := by
  unfold hget hset
  simp only
  have hfind : ∀ cells : List (Nat × Session),
      (cells.map (fun p => if p.1 = r2 then (r2, s) else p)).find?
        (fun p => decide (p.1 = r)) = cells.find? (fun p => decide (p.1 = r)) := by
    intro cells
    induction cells with
    | nil => rfl
    | cons p ps ih =>
      rw [List.map_cons]
      by_cases hp : p.1 = r2
      · rw [if_pos hp]
        simp [List.find?, hp, (Ne.symm hne : r2 ≠ r), ih]
      · rw [if_neg hp]
        by_cases hq : p.1 = r
        · simp [List.find?, hq]
        · simp [List.find?, hq, ih]
  rw [hfind]

theorem hget_halloc_lt (h : Heap) (s : Session) (r : Nat) (hne : r ≠ h.next) :
    hget (halloc h s).2 r = hget h r := by
  unfold hget halloc
  simp only
  rw [List.find?_append]
  have hone : ([(h.next, s)].find? (fun p => decide (p.1 = r))) = none := by
    rw [List.find?_cons_of_neg _ (by simp [Ne.symm hne])]
    rfl
  rw [hone, Option.or_none]

theorem hset_next (h : Heap) (r : Nat) (s : Session) : (hset h r s).next = h.next := rfl

theorem finalizeH_next (h : Heap) (c : Nat) : (finalizeH h c).next = h.next := by
  unfold finalizeH
  split <;> rfl

theorem hget_finalizeH_ne (h : Heap) (c r : Nat) (hne : r ≠ c) :
    hget (finalizeH h c) r = hget h r := by
  unfold finalizeH
  split
  · exact hget_hset_ne h r c _ hne
  · rfl

theorem mergeAuxH_frame (gap : Int) (rest : List Nat) : ∀ (h : Heap) (cur n0 : Nat)
    (h2 : Heap) (out : List Nat),
    n0 ≤ cur → n0 ≤ h.next →
    mergeAuxH gap h cur rest = Except.ok (h2, out) →
    ∀ r, r < n0 → hget h2 r = hget h r := by
  induction rest with
  | nil =>
    intro h cur n0 h2 out hcur hnext hrun r hr
    simp only [mergeAuxH] at hrun
    have hpair := Except.ok.inj hrun
    have hh : finalizeH h cur = h2 := congrArg Prod.fst hpair
    rw [← hh]
    exact hget_finalizeH_ne h cur r (by omega)
  | cons r0 rest ih =>
    intro h cur n0 h2 out hcur hnext hrun r hr
    simp only [mergeAuxH] at hrun
    cases hms : mergeStep gap (hget h cur) (hget h r0) with
    | error e =>
      rw [hms, except_bind_error] at hrun
      cases hrun
    | ok b =>
      rw [hms, except_bind_ok] at hrun
      cases b with
      | true =>
        simp only [if_true] at hrun
        cases hst : (hget h cur).start_time with
        | none =>
          rw [hst] at hrun
          simp only [keyRead, except_bind_error] at hrun
          cases hrun
        | some st =>
          rw [hst] at hrun
          simp only [keyRead, except_bind_ok] at hrun
          have hstep := ih _ cur n0 h2 out hcur (by rw [hset_next]; exact hnext) hrun r hr
          rw [hstep, hget_hset_ne h r cur _ (by omega)]
      | false =>
        simp only [Bool.false_eq_true, if_false] at hrun
        cases hrec : mergeAuxH gap
            (halloc (finalizeH h cur) (hget (finalizeH h cur) r0)).2
            (halloc (finalizeH h cur) (hget (finalizeH h cur) r0)).1 rest with
        | error e =>
          rw [hrec, except_map_error] at hrun
          cases hrun
        | ok p =>
          rw [hrec, except_map_ok] at hrun
          have hpair := Except.ok.inj hrun
          have hh : p.1 = h2 := congrArg Prod.fst hpair
          have hnext1 : (halloc (finalizeH h cur) (hget (finalizeH h cur) r0)).2.next =
              h.next + 1 := by
            rw [show (halloc (finalizeH h cur) (hget (finalizeH h cur) r0)).2.next =
              (finalizeH h cur).next + 1 from rfl, finalizeH_next]
          have hcur1 : (halloc (finalizeH h cur) (hget (finalizeH h cur) r0)).1 =
              h.next := by
            rw [show (halloc (finalizeH h cur) (hget (finalizeH h cur) r0)).1 =
              (finalizeH h cur).next from rfl, finalizeH_next]
          have hstep := ih _ _ n0 p.1 p.2 (by rw [hcur1]; omega) (by rw [hnext1]; omega)
            hrec r hr
          rw [← hh, hstep, hget_halloc_lt _ _ r
            (by rw [finalizeH_next]; omega), hget_finalizeH_ne h cur r (by omega)]

/-- C10: the heap-level model of `merge_consecutive_sessions` — where the
input list holds references to mutable session dicts, `session.copy()`
allocates a fresh dict and all writes go through `hset` — never changes any
cell that existed before the call: the caller's session dictionaries are
preserved (the function sorts into a new list and mutates per-session copies
only). -/
theorem c10_no_mutation (gap : Int) (h : Heap) (refs : List Nat) (h2 : Heap)
    (out : List Nat)
    (hv : ∀ r ∈ refs, r < h.next)
    (hrun : merge_consecutive_sessionsH gap h refs = Except.ok (h2, out)) :
    ∀ r ∈ refs, hget h2 r = hget h r := by
  unfold merge_consecutive_sessionsH at hrun
  cases hs : sortByKey (fun r => sessStart (hget h r)) refs with
  | nil =>
    rw [hs] at hrun
    have hpair := Except.ok.inj hrun
    have hh : h = h2 := congrArg Prod.fst hpair
    intro r _
    rw [← hh]
  | cons r0 rest =>
    rw [hs] at hrun
    simp only at hrun
    intro r hr
    have hrlt : r < h.next := hv r hr
    have hcur1 : (halloc h (hget h r0)).1 = h.next := rfl
    have hnext1 : (halloc h (hget h r0)).2.next = h.next + 1 := rfl
    have hstep := mergeAuxH_frame gap rest (halloc h (hget h r0)).2
      (halloc h (hget h r0)).1 h.next h2 out (by omega) (by omega) hrun r hrlt
    rw [hstep, hget_halloc_lt h _ r (by omega)]

theorem c10_witness :
    (∀ r ∈ [0, 1], r < w10heap.next) ∧
    ∃ hp ol, merge_consecutive_sessionsH 10 w10heap [0, 1] = Except.ok (hp, ol) ∧
      hget hp 0 = hget w10heap 0 ∧ hget hp 1 = hget w10heap 1 := by
  have hok : (merge_consecutive_sessionsH 10 w10heap [0, 1]).isOk = true := by decide
  refine ⟨by decide, ?_⟩
  cases hq : merge_consecutive_sessionsH 10 w10heap [0, 1] with
  | error e =>
    rw [hq] at hok
    simp [Except.isOk, Except.toBool] at hok
  | ok p =>
    obtain ⟨hp, ol⟩ := p
    refine ⟨hp, ol, rfl, ?_, ?_⟩
    · exact c10_no_mutation 10 w10heap [0, 1] hp ol (by decide) hq 0 (by decide)
    · exact c10_no_mutation 10 w10heap [0, 1] hp ol (by decide) hq 1 (by decide)
